import Mathlib

/-!
Verification of the sparse-interval coverage engine of day15 (sensors and
beacons on an integer grid): closed integer ranges, canonical sparse unions
built by a sorted sweep, Manhattan-diamond line cuts, and the two-phase
missing-beacon search.
-/

set_option maxRecDepth 20000

namespace Day15

/-- Signed 2D grid point, mirroring `aoc::euclid::Point`. -/
structure Point where
  x : Int
  y : Int
deriving DecidableEq, Inhabited

/-- Closed integer interval `[min, max]`, mirroring `Range { min, max }`. -/
structure Range where
  min : Int
  max : Int
deriving DecidableEq, Inhabited

namespace Range

/-- The documented invariant of `Range`: `min ≤ max`. -/
def Valid (r : Range) : Prop := r.min ≤ r.max

instance : DecidablePred Valid := fun r => decidable_of_iff (r.min ≤ r.max) Iff.rfl

/-- `Range::len`: `(self.max - self.min + 1) as usize`. -/
def len (r : Range) : Nat := (r.max - r.min + 1).toNat

/-- `Range::overlaps`: `self.min <= other.max && other.min <= self.max`. -/
def overlaps (a b : Range) : Bool := decide (a.min ≤ b.max ∧ b.min ≤ a.max)

/-- `Range::nears`: `self.min == other.max + 1 || other.min == self.max + 1`. -/
def nears (a b : Range) : Bool := decide (a.min = b.max + 1 ∨ b.min = a.max + 1)

/-- `Range::join`: smallest enclosing interval (the source asserts
overlap-or-adjacency before computing exactly this). -/
def join (a b : Range) : Range := ⟨Min.min a.min b.min, Max.max a.max b.max⟩

/-- `Range::punch`: the at-most-two leftovers of `self` after removing
`other`, evaluated independently against the original bounds. -/
def punch (a b : Range) : Option Range × Option Range :=
  (if a.min < b.min then some ⟨a.min, b.min - 1⟩ else none,
   if b.max < a.max then some ⟨b.max + 1, a.max⟩ else none)

/-- The point-set a range represents: `min ≤ t ≤ max`. -/
def covers (r : Range) (t : Int) : Prop := r.min ≤ t ∧ t ≤ r.max

instance : ∀ (r : Range) (t : Int), Decidable (covers r t) :=
  fun r t => decidable_of_iff (r.min ≤ t ∧ t ≤ r.max) Iff.rfl

/-- The strict lexicographic order on `(min, max)` that Rust derives with
`#[derive(PartialOrd, Ord)]` and `BTreeSet<Range>` sorts by. -/
def lexLt (a b : Range) : Bool :=
  decide (a.min < b.min ∨ (a.min = b.min ∧ a.max < b.max))

/-- The point-set of a range as a finite set of integers. -/
def toFinset (r : Range) : Finset Int := Finset.Icc r.min r.max

/-- The members of a range in increasing order, mirroring iteration over
`RangeInclusive::from(&range)`. -/
def toList (r : Range) : List Int :=
  (List.range (r.max - r.min + 1).toNat).map (fun i => r.min + (i : Int))

end Range

/-- `SparseRange(pub Vec<Range>)`. -/
structure SparseRange where
  ranges : List Range
deriving DecidableEq, Inhabited

/-- `SparseRange::len`: sum of the lengths of the contained ranges. -/
def SparseRange.len (s : SparseRange) : Nat := (s.ranges.map Range.len).sum

/-- The loop of `SparseRange::holes_in_range`: walk the filled ranges,
skip ones that do not overlap the shard, push the left leftover of each
punch, continue with the right leftover or stop when there is none.
The Rust loop returns only the pushed left leftovers. -/
def holesLoop (shard : Range) : List Range → List Range
  | [] => []
  | filled :: rest =>
    if filled.overlaps shard then
      let pr := shard.punch filled
      pr.1.toList ++
        (match pr.2 with
         | some right => holesLoop right rest
         | none => [])
    else
      holesLoop shard rest

/-- `SparseRange::holes_in_range`. -/
def SparseRange.holesInRange (s : SparseRange) (range : Range) : SparseRange :=
  ⟨holesLoop range s.ranges⟩

/-- Insertion into the `BTreeSet<Range>` of `SparseRangeBuilder`, modelled
as insertion into a strictly `lexLt`-sorted duplicate-free list. -/
def bAdd (r : Range) : List Range → List Range
  | [] => [r]
  | x :: xs =>
    if Range.lexLt r x then r :: x :: xs
    else if Range.lexLt x r then x :: bAdd r xs
    else x :: xs

/-- Adding a whole collection of ranges, one `SparseRangeBuilder::add` at a
time. -/
def addAll (l : List Range) : List Range := l.foldl (fun b r => bAdd r b) []

/-- The sweep of `SparseRangeBuilder::build`: fold the sorted ranges with a
working `cursor`, joining each next range that overlaps or nears it and
emitting the cursor otherwise. -/
def buildLoop : Option Range → List Range → List Range
  | none, [] => []
  | some wip, [] => [wip]
  | none, r :: rs => buildLoop (some r) rs
  | some wip, r :: rs =>
    if wip.overlaps r || wip.nears r then buildLoop (some (wip.join r)) rs
    else wip :: buildLoop (some r) rs

/-- `SparseRangeBuilder::build` applied to the builder's sorted contents. -/
def SparseRangeBuilder.build (b : List Range) : SparseRange := ⟨buildLoop none b⟩

/-- The type-level axis switch: `XAxis` / `YAxis`. -/
inductive Axis
  | X
  | Y
deriving DecidableEq, Inhabited

/-- `AxisProjection::axis`: the coordinate along the free axis. -/
def Axis.axis : Axis → Point → Int
  | .X, p => p.x
  | .Y, p => p.y

/-- `AxisProjection::transposed`: the coordinate along the fixed axis. -/
def Axis.transposed : Axis → Point → Int
  | .X, p => p.y
  | .Y, p => p.x

/-- `Sensor { position, beacon, range }` with `range: usize`. -/
structure Sensor where
  position : Point
  beacon : Point
  range : Nat
deriving DecidableEq, Inhabited

/-- `Sensor::new`: the radius is the Manhattan distance from the position
to the beacon. -/
def Sensor.new (position beacon : Point) : Sensor :=
  ⟨position, beacon,
   (position.x - beacon.x).natAbs + (position.y - beacon.y).natAbs⟩

/-- `Sensor::cut`: intersection of the sensor's diamond with the line whose
fixed-axis coordinate is `pos`. -/
def Sensor.cut (s : Sensor) (ap : Axis) (pos : Int) : Option Range :=
  let center := ap.axis s.position
  let anchor := ap.transposed s.position
  let range : Int := (s.range : Int)
  if pos < anchor - range ∨ anchor + range < pos then
    none
  else
    let shift : Int := ((pos - anchor).natAbs : Int)
    some ⟨center - range + shift, center + range - shift⟩

/-- `Scan(pub Vec<Sensor>)`. -/
structure Scan where
  sensors : List Sensor
deriving DecidableEq, Inhabited

/-- The non-`None` per-sensor cuts that `Scan::cut` feeds to its builder. -/
def Scan.cutList (s : Scan) (ap : Axis) (pos : Int) : List Range :=
  s.sensors.filterMap (fun se => se.cut ap pos)

/-- `Scan::cut`: fold every sensor's cut through a fresh builder. -/
def Scan.cut (s : Scan) (ap : Axis) (pos : Int) : SparseRange :=
  SparseRangeBuilder.build (addAll (s.cutList ap pos))

/-- `Scan::beacons`: the number of distinct beacons lying on the queried
line (a `BTreeSet<Point>` of the filtered beacons). -/
def Scan.beacons (s : Scan) (ap : Axis) (pos : Int) : Nat :=
  ((s.sensors.filter (fun se => ap.transposed se.beacon == pos)).map
      (fun se => se.beacon)).toFinset.card

/-- `Scan::tiles_without_beacons`: covered length minus the distinct
beacons on the line (`usize` subtraction). -/
def Scan.tilesWithoutBeacons (s : Scan) (ap : Axis) (pos : Int) : Nat :=
  (s.cut ap pos).len - s.beacons ap pos

/-- `Scan::find_beacons`: phase A accumulates, over every row of `yr`, the
holes of the X cut within `xr` into one builder; phase B walks every
coordinate of every surviving candidate range and collects the holes of
the Y cut within `yr` as points. -/
def Scan.findBeacons (s : Scan) (xr yr : Range) : List Point :=
  let cands := SparseRangeBuilder.build
    (yr.toList.foldl
      (fun acc y =>
        ((s.cut Axis.X y).holesInRange xr).ranges.foldl (fun a r => bAdd r a) acc)
      [])
  cands.ranges.flatMap (fun cxr =>
    cxr.toList.flatMap (fun x =>
      ((s.cut Axis.Y x).holesInRange yr).ranges.flatMap (fun r =>
        r.toList.map (fun y => Point.mk x y))))

/-- `Scan::tuning_frequency`: reports `x * 4_000_000 + y` for the single
found point, or an error carrying the abnormal candidate count. -/
def Scan.tuningFrequency (s : Scan) (area : Range) : Except String Int :=
  let beacons := s.findBeacons area area
  let count := beacons.length
  if count = 0 then Except.error "No beacon found"
  else if 1 < count then Except.error (toString count ++ " beacons found")
  else Except.ok (beacons.headI.x * 4000000 + beacons.headI.y)

/-- The propositional form of the builder's strict insertion order. -/
def LexLtP (a b : Range) : Prop := Range.lexLt a b = true

/-- Weak order on starting points, all the sweep needs from the set. -/
def MinLe (a b : Range) : Prop := a.min ≤ b.min

/-- Canonical separation: a full unused gap between consecutive intervals. -/
def GapLt (a b : Range) : Prop := a.max + 1 < b.min

/-- The union of the point-sets of a list of ranges. -/
def coveredSet (l : List Range) : Finset Int :=
  l.foldr (fun r s => r.toFinset ∪ s) ∅

/-- Canonical separation of two listed intervals as the spec phrases it:
increasing starts, no overlap, no adjacency. -/
def CanonSep (a b : Range) : Prop :=
  a.min ≤ b.min ∧ a.overlaps b = false ∧ a.nears b = false

instance : ∀ a b : Range, Decidable (CanonSep a b) := fun a b =>
  decidable_of_iff (a.min ≤ b.min ∧ a.overlaps b = false ∧ a.nears b = false)
    Iff.rfl

/-- A sub-range of an optional leftover covering a point. -/
def optCovers (o : Option Range) (t : Int) : Prop := ∃ r, o = some r ∧ r.covers t

/-- What claim C8 asserts of `Range::punch`: the left part is present
exactly when `self.min < other.min` and is `[self.min, other.min - 1]`, the
right part is present exactly when `self.max > other.max` and is
`[other.max + 1, self.max]`, and every returned part is a valid interval. -/
def PunchPartsSpec (a b : Range) : Prop :=
  ((∃ r : Range, (a.punch b).1 = some r) ↔ a.min < b.min) ∧
  (∀ r : Range, (a.punch b).1 = some r → r = ⟨a.min, b.min - 1⟩ ∧ r.Valid) ∧
  ((∃ r : Range, (a.punch b).2 = some r) ↔ b.max < a.max) ∧
  (∀ r : Range, (a.punch b).2 = some r → r = ⟨b.max + 1, a.max⟩ ∧ r.Valid)

/-- What the amended claim C2 asserts of `Range::punch`: when `b` overlaps
`a` the leftovers together with `a ∩ b` reconstruct exactly `a`; when `b`
fully contains `a` there is no leftover; when `b` does not overlap `a`
there is a single leftover, which covers all of `a` but runs to the near
edge of `b` (so it can strictly exceed `a`). -/
def PunchReconstructSpec (a b : Range) : Prop :=
  (a.overlaps b = true →
    ∀ t : Int, a.covers t ↔
      (optCovers (a.punch b).1 t ∨ (a.covers t ∧ b.covers t) ∨
       optCovers (a.punch b).2 t)) ∧
  (b.min ≤ a.min → a.max ≤ b.max → a.punch b = (none, none)) ∧
  (a.overlaps b = false →
    (a.max < b.min → a.punch b = (some ⟨a.min, b.min - 1⟩, none)) ∧
    (b.max < a.min → a.punch b = (none, some ⟨b.max + 1, a.max⟩)) ∧
    (∀ t : Int, a.covers t →
      optCovers (a.punch b).1 t ∨ optCovers (a.punch b).2 t))

/-- What claim C4 asserts of `Sensor::cut`: no coverage exactly when the
fixed coordinate is farther from the anchor than the radius, and otherwise
the interval `[center - (r - shift), center + (r - shift)]` with
`shift = |pos - anchor|`. -/
def CutSpec (s : Sensor) (ap : Axis) (pos : Int) : Prop :=
  (s.cut ap pos = none ↔ s.range < (pos - ap.transposed s.position).natAbs) ∧
  ((pos - ap.transposed s.position).natAbs ≤ s.range →
    s.cut ap pos = some
      ⟨ap.axis s.position -
         ((s.range : Int) - ((pos - ap.transposed s.position).natAbs : Int)),
       ap.axis s.position +
         ((s.range : Int) - ((pos - ap.transposed s.position).natAbs : Int))⟩)

/-- What claim C6 asserts of `Scan::tuning_frequency`: `Ok` exactly for a
single candidate point, and for zero or several candidates an error value
that carries the candidate count. -/
def TuningSpec (s : Scan) (area : Range) : Prop :=
  (∀ v : Int, s.tuningFrequency area = Except.ok v ↔
    ∃ p : Point, s.findBeacons area area = [p] ∧ v = p.x * 4000000 + p.y) ∧
  (s.findBeacons area area = [] →
    s.tuningFrequency area = Except.error "No beacon found") ∧
  (1 < (s.findBeacons area area).length →
    s.tuningFrequency area =
      Except.error (toString (s.findBeacons area area).length ++ " beacons found"))

/-- What claim C3 asserts of the builder: the built intervals are sorted
by `min`, pairwise non-overlapping and pairwise non-adjacent, and the
total length equals the cardinality of the union of the added ranges'
point-sets. -/
def BuildCanonSpec (l : List Range) : Prop :=
  (SparseRangeBuilder.build (addAll l)).ranges.Pairwise CanonSep ∧
  (SparseRangeBuilder.build (addAll l)).len = (coveredSet l).card

/-- The invariant `Sensor::new` establishes: the stored radius equals the
Manhattan distance from the sensor's position to its beacon. -/
def ScanRadiusInv (s : Scan) : Prop :=
  ∀ se ∈ s.sensors, se.range =
    (se.position.x - se.beacon.x).natAbs + (se.position.y - se.beacon.y).natAbs

instance : DecidablePred ScanRadiusInv := fun s =>
  decidable_of_iff
    (∀ se ∈ s.sensors, se.range =
      (se.position.x - se.beacon.x).natAbs +
        (se.position.y - se.beacon.y).natAbs)
    Iff.rfl

end Day15

namespace Day15

namespace Range

theorem overlaps_eq_true_iff {a b : Range} :
    a.overlaps b = true ↔ (a.min ≤ b.max ∧ b.min ≤ a.max) := by
  simp [overlaps]

theorem overlaps_eq_false_iff {a b : Range} :
    a.overlaps b = false ↔ ¬(a.min ≤ b.max ∧ b.min ≤ a.max) := by
  simp [overlaps]

theorem nears_eq_true_iff {a b : Range} :
    a.nears b = true ↔ (a.min = b.max + 1 ∨ b.min = a.max + 1) := by
  simp [nears]

theorem nears_eq_false_iff {a b : Range} :
    a.nears b = false ↔ ¬(a.min = b.max + 1 ∨ b.min = a.max + 1) := by
  simp [nears]

theorem lexLt_eq_true_iff {a b : Range} :
    a.lexLt b = true ↔ (a.min < b.min ∨ (a.min = b.min ∧ a.max < b.max)) := by
  simp [lexLt]

theorem lexLt_eq_false_iff {a b : Range} :
    a.lexLt b = false ↔ ¬(a.min < b.min ∨ (a.min = b.min ∧ a.max < b.max)) := by
  simp [lexLt]

end Range


/-- Claim C8: for valid ranges, `Range::punch` returns the left part
`[self.min, other.min − 1]` iff `self.min < other.min` and the right part
`[other.max + 1, self.max]` iff `self.max > other.max`, and never returns
an invalid (`min > max`) interval, including in the partial-overlap and
non-overlapping cases. -/
theorem punch_parts (a b : Range) (ha : a.Valid) (hb : b.Valid) :
    PunchPartsSpec a b := by
  have ha' : a.min ≤ a.max := ha
  have hb' : b.min ≤ b.max := hb
  refine ⟨⟨fun h => ?_, fun h => ?_⟩, fun r hr => ?_,
          ⟨fun h => ?_, fun h => ?_⟩, fun r hr => ?_⟩
  · obtain ⟨r, hr⟩ := h
    by_contra hc
    simp [Range.punch, hc] at hr
  · exact ⟨⟨a.min, b.min - 1⟩, by simp [Range.punch, h]⟩
  · by_cases h1 : a.min < b.min
    · simp only [Range.punch, if_pos h1, Option.some.injEq] at hr
      subst hr
      exact ⟨rfl, show a.min ≤ b.min - 1 by omega⟩
    · simp [Range.punch, h1] at hr
  · obtain ⟨r, hr⟩ := h
    by_contra hc
    simp [Range.punch, hc] at hr
  · exact ⟨⟨b.max + 1, a.max⟩, by simp [Range.punch, h]⟩
  · by_cases h2 : b.max < a.max
    · simp only [Range.punch, if_pos h2, Option.some.injEq] at hr
      subst hr
      exact ⟨rfl, show b.max + 1 ≤ a.max by omega⟩
    · simp [Range.punch, h2] at hr

/-- Witness for claim C8 at `a = [0,5]`, `b = [2,3]`. -/
theorem punch_parts_witness :
    Range.Valid ⟨0,5⟩ ∧ Range.Valid ⟨2,3⟩ ∧ PunchPartsSpec ⟨0,5⟩ ⟨2,3⟩ :=
  ⟨by decide, by decide, punch_parts ⟨0,5⟩ ⟨2,3⟩ (by decide) (by decide)⟩

end Day15

namespace Day15

/-- Claim C2, counterexample: for the valid, non-overlapping ranges
`a = [0,2]` and `b = [5,6]`, `Range::punch` does not return `a` unchanged
as the sole leftover: it returns `([0,4], None)`, which strictly exceeds
`a`. -/
theorem punch_nonoverlap_counterexample :
    Range.Valid ⟨0,2⟩ ∧ Range.Valid ⟨5,6⟩ ∧
    Range.overlaps ⟨0,2⟩ ⟨5,6⟩ = false ∧
    Range.punch ⟨0,2⟩ ⟨5,6⟩ = (some ⟨0,4⟩, none) ∧
    ¬ Range.punch ⟨0,2⟩ ⟨5,6⟩ = (some ⟨0,2⟩, none) := by decide


/-- Claim C2 as amended: for valid ranges `a`, `b`, if `b` overlaps `a`
the at-most-two leftovers of `punch` together with `a ∩ b` reconstruct
exactly `a`; if `b` fully contains `a` there are no leftovers; if `b` does
not overlap `a`, `punch` returns one leftover on the side of `a`, which
contains every point of `a` but extends to the near edge of `b` rather
than being `a` unchanged. -/
theorem punch_reconstruction (a b : Range) (ha : a.Valid) (hb : b.Valid) :
    PunchReconstructSpec a b := by
  have ha' : a.min ≤ a.max := ha
  have hb' : b.min ≤ b.max := hb
  refine ⟨fun hov t => ?_, fun hm hM => ?_, fun hov => ⟨fun hlt => ?_, fun hgt => ?_, fun t ht => ?_⟩⟩
  · rw [Range.overlaps_eq_true_iff] at hov
    by_cases h1 : a.min < b.min <;> by_cases h2 : b.max < a.max <;>
      simp only [Range.punch, h1, h2, if_true, if_false, ite_true, ite_false,
        optCovers, Range.covers, Option.some.injEq, reduceCtorEq,
        exists_eq_left', false_and, exists_false, false_or, or_false] <;>
      constructor <;> intro hh <;> omega
  · simp only [Range.punch, Prod.mk.injEq, ite_eq_right_iff, reduceCtorEq]
    omega
  · rw [Range.overlaps_eq_false_iff] at hov
    simp only [Range.punch, Prod.mk.injEq]
    constructor
    · rw [if_pos (by omega)]
    · rw [if_neg (by omega)]
  · rw [Range.overlaps_eq_false_iff] at hov
    simp only [Range.punch, Prod.mk.injEq]
    constructor
    · rw [if_neg (by omega)]
    · rw [if_pos (by omega)]
  · rw [Range.overlaps_eq_false_iff] at hov
    obtain ⟨h1, h2⟩ := ht
    by_cases hside : a.max < b.min
    · left
      refine ⟨⟨a.min, b.min - 1⟩, ?_, show a.min ≤ t by omega,
              show t ≤ b.min - 1 by omega⟩
      simp only [Range.punch]
      rw [if_pos (by omega)]
    · right
      refine ⟨⟨b.max + 1, a.max⟩, ?_, show b.max + 1 ≤ t by omega,
              show t ≤ a.max by omega⟩
      simp only [Range.punch]
      rw [if_pos (by omega)]

/-- Witness for the amended claim C2 at `a = [0,5]`, `b = [3,10]`. -/
theorem punch_reconstruction_witness :
    Range.Valid ⟨0,5⟩ ∧ Range.Valid ⟨3,10⟩ ∧ PunchReconstructSpec ⟨0,5⟩ ⟨3,10⟩ :=
  ⟨by decide, by decide, punch_reconstruction ⟨0,5⟩ ⟨3,10⟩ (by decide) (by decide)⟩

end Day15

namespace Day15


/-- Claim C4: `Sensor::cut` returns `None` iff `|pos − anchor| > r`, and
otherwise the exact integer interval
`[center − (r − shift), center + (r − shift)]` with `shift = |pos − anchor|`,
where `anchor` is the sensor's fixed-axis and `center` its free-axis
coordinate. -/
theorem sensor_cut_formula (s : Sensor) (ap : Axis) (pos : Int) :
    CutSpec s ap pos := by
  unfold CutSpec Sensor.cut
  by_cases h : pos < ap.transposed s.position - (s.range : Int) ∨
      ap.transposed s.position + (s.range : Int) < pos
  · rw [if_pos h]
    refine ⟨⟨fun _ => by omega, fun _ => rfl⟩, fun hle => by omega⟩
  · rw [if_neg h]
    refine ⟨⟨fun hc => by simp at hc, fun hgt => by omega⟩, fun hle => ?_⟩
    simp only [Option.some.injEq, Range.mk.injEq]
    omega

/-- Claim C7, counterexample: for the sensor at `(8,7)` with beacon
`(2,10)` (radius 9), the center-row cut `cut(XAxis, 7)` is the full
diameter `[-1, 17]`, not `[2, 14]` as the claim states. -/
theorem sensor_cut_example_counterexample :
    (Sensor.new ⟨8,7⟩ ⟨2,10⟩).range = 9 ∧
    (Sensor.new ⟨8,7⟩ ⟨2,10⟩).cut Axis.X 7 = some ⟨-1, 17⟩ ∧
    ¬ (Sensor.new ⟨8,7⟩ ⟨2,10⟩).cut Axis.X 7 = some ⟨2, 14⟩ := by decide

/-- Claim C7 as amended: for the sensor constructed with position `(8,7)`
and beacon `(2,10)` (radius 9), `cut(XAxis, 7)` equals the full-diameter
interval `[-1, 17]`; `cut(XAxis, 7 + 9)` and `cut(XAxis, 7 - 9)` each
equal the single-point interval `[8, 8]`; and `cut(XAxis, 7 + 10)` and
`cut(XAxis, 7 - 10)` each equal `None`. -/
theorem sensor_cut_example :
    (Sensor.new ⟨8,7⟩ ⟨2,10⟩).range = 9 ∧
    (Sensor.new ⟨8,7⟩ ⟨2,10⟩).cut Axis.X 7 = some ⟨-1, 17⟩ ∧
    (Sensor.new ⟨8,7⟩ ⟨2,10⟩).cut Axis.X (7 + 9) = some ⟨8, 8⟩ ∧
    (Sensor.new ⟨8,7⟩ ⟨2,10⟩).cut Axis.X (7 - 9) = some ⟨8, 8⟩ ∧
    (Sensor.new ⟨8,7⟩ ⟨2,10⟩).cut Axis.X (7 + 10) = none ∧
    (Sensor.new ⟨8,7⟩ ⟨2,10⟩).cut Axis.X (7 - 10) = none := by decide

/-- Claim C1: evaluation at a failing input. For the canonical sparse
range whose single interval is `[0,5]` and the bound `[0,9]`, the
uncovered suffix `[6,9]` survives the loop as the shard, yet
`holes_in_range` emits no hole at all: the point `7` lies in the bound
and in no interval of the sparse range, but in no interval of the result
either. -/
theorem holes_in_range_drops_trailing_shard :
    (SparseRange.holesInRange ⟨[⟨0,5⟩]⟩ ⟨0,9⟩).ranges = [] ∧
    Range.covers ⟨0,9⟩ 7 ∧ ¬ Range.covers ⟨0,5⟩ 7 := by decide

/-- Claim C5: evaluation at a failing input. For a scan with zero sensors
the coverage is empty, yet finding the holes of that coverage within the
bound `[0,5]` returns no hole instead of the entire bound as one hole;
for a bound fully covered by a single sensor's interval, zero holes are
returned, as the claim states. -/
theorem empty_scan_zero_holes :
    ((Scan.cut ⟨[]⟩ Axis.X 0).holesInRange ⟨0,5⟩).ranges = [] ∧
    (Scan.cut ⟨[]⟩ Axis.X 0).ranges = [] ∧
    ((Scan.cut ⟨[Sensor.new ⟨0,0⟩ ⟨7,3⟩]⟩ Axis.X 0).holesInRange ⟨0,5⟩).ranges
      = [] := by decide


/-- Claim C6: `Scan::tuning_frequency` returns `Ok(p.x * 4_000_000 + p.y)`
iff `find_beacons` yields exactly one candidate point `p`; with zero
candidates it returns the error "No beacon found" and with several the
error naming the candidate count, never panicking. -/
theorem tuning_frequency_reports (s : Scan) (area : Range) :
    TuningSpec s area := by
  unfold TuningSpec Scan.tuningFrequency
  cases h : s.findBeacons area area with
  | nil =>
    refine ⟨fun v => ⟨fun hc => by simp at hc, fun ⟨p, hp, _⟩ => by simp at hp⟩,
            fun _ => rfl, fun hlen => by simp at hlen⟩
  | cons p rest =>
    cases rest with
    | nil =>
      refine ⟨fun v => ⟨fun hc => ?_, fun ⟨q, hq, hv⟩ => ?_⟩,
              fun hc => by simp at hc, fun hlen => by simp at hlen⟩
      · simp only [List.length_cons, List.length_nil] at hc
        norm_num at hc
        exact ⟨p, rfl, by simpa [List.headI] using hc.symm⟩
      · obtain rfl : p = q := by simpa using hq
        simp [List.headI, hv]
    | cons q rest2 =>
      refine ⟨fun v => ⟨fun hc => ?_, fun ⟨w, hw, hv⟩ => by simp at hw⟩,
              fun hc => by simp at hc, fun hlen => ?_⟩
      · simp only [List.length_cons] at hc
        norm_num at hc
        exact Except.noConfusion hc
      · simp only [List.length_cons]
        norm_num

end Day15

namespace Day15


theorem lexLt_trans {a b c : Range} (h1 : LexLtP a b) (h2 : LexLtP b c) :
    LexLtP a c := by
  unfold LexLtP at *
  rw [Range.lexLt_eq_true_iff] at *
  omega

theorem lexLt_asymm {a b : Range} (h : LexLtP a b) : Range.lexLt b a = false := by
  unfold LexLtP at h
  rw [Range.lexLt_eq_true_iff] at h
  rw [Range.lexLt_eq_false_iff]
  omega

theorem lexLt_total_eq {a b : Range} (h1 : Range.lexLt a b = false)
    (h2 : Range.lexLt b a = false) : a = b := by
  rw [Range.lexLt_eq_false_iff] at h1 h2
  obtain ⟨am, aM⟩ := a
  obtain ⟨bm, bM⟩ := b
  simp only [Range.mk.injEq]
  simp only at h1 h2
  omega

theorem mem_bAdd {x r : Range} : ∀ {l : List Range},
    x ∈ bAdd r l ↔ x = r ∨ x ∈ l := by
  intro l
  induction l with
  | nil => simp [bAdd]
  | cons y ys ih =>
    by_cases h1 : Range.lexLt r y
    · simp [bAdd, h1]
    · by_cases h2 : Range.lexLt y r
      · simp only [bAdd, h1, h2, if_false, if_true, Bool.false_eq_true,
          ite_false, ite_true, List.mem_cons, ih]
        tauto
      · have heq : y = r :=
          lexLt_total_eq (Bool.of_not_eq_true h2) (Bool.of_not_eq_true h1)
        subst heq
        simp only [bAdd, h1, h2, if_false, Bool.false_eq_true, ite_false,
          List.mem_cons]
        tauto

theorem pairwise_bAdd {r : Range} : ∀ {l : List Range},
    l.Pairwise LexLtP → (bAdd r l).Pairwise LexLtP := by
  intro l
  induction l with
  | nil => simp [bAdd]
  | cons y ys ih =>
    intro hp
    obtain ⟨hy, hys⟩ := List.pairwise_cons.mp hp
    by_cases h1 : Range.lexLt r y
    · simp only [bAdd, h1, ite_true]
      refine List.pairwise_cons.mpr ⟨?_, hp⟩
      intro z hz
      rcases List.mem_cons.mp hz with rfl | hz'
      · exact h1
      · exact lexLt_trans h1 (hy z hz')
    · by_cases h2 : Range.lexLt y r
      · simp only [bAdd, h1, h2, Bool.false_eq_true, ite_false, ite_true]
        refine List.pairwise_cons.mpr ⟨?_, ih hys⟩
        intro z hz
        rcases mem_bAdd.mp hz with rfl | hz'
        · exact h2
        · exact hy z hz'
      · simp only [bAdd, h1, h2, Bool.false_eq_true, ite_false]
        exact hp

theorem mem_addAll_aux {x : Range} : ∀ (l acc : List Range),
    (x ∈ List.foldl (fun b r => bAdd r b) acc l ↔ x ∈ acc ∨ x ∈ l) := by
  intro l
  induction l with
  | nil => simp
  | cons y ys ih =>
    intro acc
    simp only [List.foldl_cons, ih, mem_bAdd, List.mem_cons]
    tauto

theorem pairwise_addAll_aux : ∀ (l acc : List Range),
    acc.Pairwise LexLtP →
    (List.foldl (fun b r => bAdd r b) acc l).Pairwise LexLtP := by
  intro l
  induction l with
  | nil => exact fun acc hacc => by rw [List.foldl_nil]; exact hacc
  | cons y ys ih =>
    intro acc hacc
    exact ih (bAdd y acc) (pairwise_bAdd hacc)

theorem mem_addAll {x : Range} {l : List Range} : x ∈ addAll l ↔ x ∈ l := by
  unfold addAll
  rw [mem_addAll_aux]
  simp

theorem pairwise_addAll {l : List Range} : (addAll l).Pairwise LexLtP :=
  pairwise_addAll_aux l [] (List.Pairwise.nil)

end Day15

namespace Day15


theorem mem_coveredSet {t : Int} : ∀ {l : List Range},
    t ∈ coveredSet l ↔ ∃ r ∈ l, r.covers t := by
  intro l
  induction l with
  | nil => simp [coveredSet]
  | cons r rest ih =>
    simp only [coveredSet, List.foldr_cons, Finset.mem_union, List.mem_cons]
    constructor
    · rintro (h | h)
      · exact ⟨r, Or.inl rfl, by simpa [Range.toFinset, Range.covers,
          Finset.mem_Icc] using h⟩
      · obtain ⟨e, he, hc⟩ := ih.mp h
        exact ⟨e, Or.inr he, hc⟩
    · rintro ⟨e, (rfl | he), hc⟩
      · exact Or.inl (by simpa [Range.toFinset, Finset.mem_Icc] using hc)
      · exact Or.inr (ih.mpr ⟨e, he, hc⟩)

theorem coveredSet_congr {l1 l2 : List Range}
    (h : ∀ x, x ∈ l1 ↔ x ∈ l2) : coveredSet l1 = coveredSet l2 := by
  apply Finset.ext
  intro t
  rw [mem_coveredSet, mem_coveredSet]
  constructor
  · rintro ⟨r, hr, hc⟩
    exact ⟨r, (h r).mp hr, hc⟩
  · rintro ⟨r, hr, hc⟩
    exact ⟨r, (h r).mpr hr, hc⟩

theorem join_valid {a b : Range} (ha : a.Valid) (hb : b.Valid) :
    (a.join b).Valid := by
  have ha' : a.min ≤ a.max := ha
  have hb' : b.min ≤ b.max := hb
  show Min.min a.min b.min ≤ Max.max a.max b.max
  omega

theorem covers_join {a b : Range} {t : Int}
    (hj : a.overlaps b = true ∨ a.nears b = true)
    (ha : a.Valid) (hb : b.Valid) :
    ((a.join b).covers t ↔ a.covers t ∨ b.covers t) := by
  have ha' : a.min ≤ a.max := ha
  have hb' : b.min ≤ b.max := hb
  rcases hj with h | h
  · rw [Range.overlaps_eq_true_iff] at h
    show (Min.min a.min b.min ≤ t ∧ t ≤ Max.max a.max b.max) ↔ _
    unfold Range.covers
    omega
  · rw [Range.nears_eq_true_iff] at h
    show (Min.min a.min b.min ≤ t ∧ t ≤ Max.max a.max b.max) ↔ _
    unfold Range.covers
    omega

theorem buildLoop_covers {t : Int} : ∀ (rs : List Range) (wip : Range),
    wip.Valid → (∀ r ∈ rs, r.Valid) →
    ((∃ r ∈ buildLoop (some wip) rs, r.covers t) ↔
      (wip.covers t ∨ ∃ r ∈ rs, r.covers t)) := by
  intro rs
  induction rs with
  | nil =>
    intro wip _ _
    simp [buildLoop]
  | cons r rest ih =>
    intro wip hwip hv
    have hr : r.Valid := hv r (List.mem_cons_self r rest)
    have hrest : ∀ x ∈ rest, x.Valid := fun x hx => hv x (List.mem_cons_of_mem r hx)
    by_cases hj : wip.overlaps r || wip.nears r
    · rw [show buildLoop (some wip) (r :: rest) = buildLoop (some (wip.join r)) rest
        from by simp [buildLoop, hj]]
      rw [ih (wip.join r) (join_valid hwip hr) hrest]
      rw [covers_join (Bool.or_eq_true_iff.mp hj) hwip hr]
      simp only [List.mem_cons]
      constructor
      · rintro ((h | h) | ⟨e, he, hc⟩)
        · exact Or.inl h
        · exact Or.inr ⟨r, Or.inl rfl, h⟩
        · exact Or.inr ⟨e, Or.inr he, hc⟩
      · rintro (h | ⟨e, (rfl | he), hc⟩)
        · exact Or.inl (Or.inl h)
        · exact Or.inl (Or.inr hc)
        · exact Or.inr ⟨e, he, hc⟩
    · rw [show buildLoop (some wip) (r :: rest) = wip :: buildLoop (some r) rest
        from by simp [buildLoop, hj]]
      simp only [List.mem_cons]
      constructor
      · rintro ⟨e, (rfl | he), hc⟩
        · exact Or.inl hc
        · rcases (ih r hr hrest).mp ⟨e, he, hc⟩ with h | ⟨f, hf, hfc⟩
          · exact Or.inr ⟨r, Or.inl rfl, h⟩
          · exact Or.inr ⟨f, Or.inr hf, hfc⟩
      · rintro (h | ⟨e, (heq | he), hc⟩)
        · exact ⟨wip, Or.inl rfl, h⟩
        · obtain ⟨f, hf, hfc⟩ := (ih r hr hrest).mpr (Or.inl (heq ▸ hc))
          exact ⟨f, Or.inr hf, hfc⟩
        · obtain ⟨f, hf, hfc⟩ := (ih r hr hrest).mpr (Or.inr ⟨e, he, hc⟩)
          exact ⟨f, Or.inr hf, hfc⟩

theorem buildLoop_none_covers {t : Int} {l : List Range}
    (hv : ∀ r ∈ l, r.Valid) :
    ((∃ r ∈ buildLoop none l, r.covers t) ↔ ∃ r ∈ l, r.covers t) := by
  cases l with
  | nil => simp [buildLoop]
  | cons r rest =>
    have hr : r.Valid := hv r (List.mem_cons_self r rest)
    have hrest : ∀ x ∈ rest, x.Valid := fun x hx => hv x (List.mem_cons_of_mem r hx)
    rw [show buildLoop none (r :: rest) = buildLoop (some r) rest from rfl]
    rw [buildLoop_covers rest r hr hrest]
    simp only [List.mem_cons]
    constructor
    · rintro (h | ⟨e, he, hc⟩)
      · exact ⟨r, Or.inl rfl, h⟩
      · exact ⟨e, Or.inr he, hc⟩
    · rintro ⟨e, (rfl | he), hc⟩
      · exact Or.inl hc
      · exact Or.inr ⟨e, he, hc⟩

end Day15

namespace Day15

theorem buildLoop_canon : ∀ (rs : List Range) (wip : Range),
    wip.Valid → (∀ r ∈ rs, r.Valid) → rs.Pairwise MinLe →
    (∀ r ∈ rs, wip.min ≤ r.min) →
    ((∀ e ∈ buildLoop (some wip) rs, e.Valid ∧ wip.min ≤ e.min) ∧
      (buildLoop (some wip) rs).Chain' GapLt) := by
  intro rs
  induction rs with
  | nil =>
    intro wip hwip _ _ _
    refine ⟨fun e he => ?_, by simp [buildLoop]⟩
    obtain rfl : e = wip := by simpa [buildLoop] using he
    exact ⟨hwip, le_refl _⟩
  | cons r rest ih =>
    intro wip hwip hv hp hmin
    have hr : r.Valid := hv r (List.mem_cons_self r rest)
    have hrest : ∀ x ∈ rest, x.Valid :=
      fun x hx => hv x (List.mem_cons_of_mem r hx)
    obtain ⟨hpr, hprest⟩ := List.pairwise_cons.mp hp
    have hwr : wip.min ≤ r.min := hmin r (List.mem_cons_self r rest)
    by_cases hj : wip.overlaps r || wip.nears r
    · rw [show buildLoop (some wip) (r :: rest) =
          buildLoop (some (wip.join r)) rest from by simp [buildLoop, hj]]
      have hjv : (wip.join r).Valid := join_valid hwip hr
      have hmin' : ∀ x ∈ rest, (wip.join r).min ≤ x.min := by
        intro x hx
        have h1 : r.min ≤ x.min := hpr x hx
        show Min.min wip.min r.min ≤ x.min
        omega
      obtain ⟨h1, h2⟩ := ih (wip.join r) hjv hrest hprest hmin'
      refine ⟨fun e he => ?_, h2⟩
      obtain ⟨he1, he2⟩ := h1 e he
      have he2' : Min.min wip.min r.min ≤ e.min := he2
      exact ⟨he1, by omega⟩
    · rw [show buildLoop (some wip) (r :: rest) =
          wip :: buildLoop (some r) rest from by simp [buildLoop, hj]]
      have hsep : wip.max + 1 < r.min := by
        rw [Bool.or_eq_true_iff, not_or] at hj
        obtain ⟨hj1, hj2⟩ := hj
        have h1 : wip.overlaps r = false := Bool.of_not_eq_true hj1
        have h2 : wip.nears r = false := Bool.of_not_eq_true hj2
        rw [Range.overlaps_eq_false_iff] at h1
        rw [Range.nears_eq_false_iff] at h2
        have hww : wip.min ≤ wip.max := hwip
        have hrr : r.min ≤ r.max := hr
        omega
      have hminr : ∀ x ∈ rest, r.min ≤ x.min := fun x hx => hpr x hx
      obtain ⟨h1, h2⟩ := ih r hr hrest hprest hminr
      constructor
      · intro e he
        rcases List.mem_cons.mp he with rfl | he'
        · exact ⟨hwip, le_refl _⟩
        · obtain ⟨he1, he2⟩ := h1 e he'
          exact ⟨he1, by omega⟩
      · cases hout : buildLoop (some r) rest with
        | nil => simp
        | cons z zs =>
          rw [List.chain'_cons]
          refine ⟨?_, hout ▸ h2⟩
          have hz : z ∈ buildLoop (some r) rest := by
            rw [hout]; exact List.mem_cons_self z zs
          obtain ⟨_, hz2⟩ := h1 z hz
          show wip.max + 1 < z.min
          omega

theorem buildLoop_none_canon {l : List Range}
    (hv : ∀ r ∈ l, r.Valid) (hp : l.Pairwise MinLe) :
    ((∀ e ∈ buildLoop none l, e.Valid) ∧ (buildLoop none l).Chain' GapLt) := by
  cases l with
  | nil => exact ⟨by simp [buildLoop], by simp [buildLoop]⟩
  | cons r rest =>
    have hr : r.Valid := hv r (List.mem_cons_self r rest)
    have hrest : ∀ x ∈ rest, x.Valid :=
      fun x hx => hv x (List.mem_cons_of_mem r hx)
    obtain ⟨hpr, hprest⟩ := List.pairwise_cons.mp hp
    obtain ⟨h1, h2⟩ := buildLoop_canon rest r hr hrest hprest
      (fun x hx => hpr x hx)
    exact ⟨fun e he => (h1 e he).1, h2⟩

theorem chain'_gapLt_all : ∀ (l : List Range) (a : Range),
    (∀ x ∈ l, x.Valid) → List.Chain' GapLt (a :: l) → ∀ e ∈ l, GapLt a e := by
  intro l
  induction l with
  | nil => intro a _ _ e he; simp at he
  | cons b rest ih =>
    intro a hv hc e he
    obtain ⟨hab, hc'⟩ := List.chain'_cons.mp hc
    have hab' : a.max + 1 < b.min := hab
    have hb : b.min ≤ b.max := hv b (List.mem_cons_self b rest)
    rcases List.mem_cons.mp he with rfl | he'
    · exact hab
    · have := ih b (fun x hx => hv x (List.mem_cons_of_mem b hx)) hc' e he'
      have hbe : b.max + 1 < e.min := this
      show a.max + 1 < e.min
      omega

theorem chain'_gapLt_pairwise : ∀ (l : List Range),
    (∀ x ∈ l, x.Valid) → l.Chain' GapLt → l.Pairwise GapLt := by
  intro l
  induction l with
  | nil => intro _ _; exact List.Pairwise.nil
  | cons a rest ih =>
    intro hv hc
    refine List.pairwise_cons.mpr ⟨?_, ?_⟩
    · exact chain'_gapLt_all rest a
        (fun x hx => hv x (List.mem_cons_of_mem a hx)) hc
    · exact ih (fun x hx => hv x (List.mem_cons_of_mem a hx))
        (List.Chain'.tail hc)

theorem len_eq_card : ∀ (l : List Range),
    (∀ r ∈ l, r.Valid) → l.Chain' GapLt →
    (l.map Range.len).sum = (coveredSet l).card := by
  intro l
  induction l with
  | nil => simp [coveredSet]
  | cons r rest ih =>
    intro hv hc
    have hr : r.min ≤ r.max := hv r (List.mem_cons_self r rest)
    have hrest : ∀ x ∈ rest, x.Valid :=
      fun x hx => hv x (List.mem_cons_of_mem r hx)
    have hgap : ∀ e ∈ rest, GapLt r e := chain'_gapLt_all rest r hrest hc
    have hdisj : Disjoint r.toFinset (coveredSet rest) := by
      rw [Finset.disjoint_left]
      intro t ht hts
      rw [Range.toFinset, Finset.mem_Icc] at ht
      obtain ⟨e, he, hec⟩ := mem_coveredSet.mp hts
      have h1 : r.max + 1 < e.min := hgap e he
      have h2 : e.min ≤ t := hec.1
      omega
    have hcard : (coveredSet (r :: rest)).card =
        r.toFinset.card + (coveredSet rest).card := by
      rw [show coveredSet (r :: rest) = r.toFinset ∪ coveredSet rest from rfl]
      exact Finset.card_union_of_disjoint hdisj
    rw [List.map_cons, List.sum_cons, hcard, ih hrest (List.Chain'.tail hc)]
    have : r.toFinset.card = Range.len r := by
      rw [Range.toFinset, Int.card_Icc, Range.len]
      congr 1
      omega
    omega

end Day15

namespace Day15


theorem gapLt_canonSep {a b : Range} (ha : a.Valid) (hb : b.Valid)
    (h : GapLt a b) : CanonSep a b := by
  have h' : a.max + 1 < b.min := h
  have ha' : a.min ≤ a.max := ha
  have hb' : b.min ≤ b.max := hb
  refine ⟨by omega, ?_, ?_⟩
  · rw [Range.overlaps_eq_false_iff]; omega
  · rw [Range.nears_eq_false_iff]; omega

theorem canonSep_gapLt {a b : Range} (ha : a.Valid) (hb : b.Valid)
    (h : CanonSep a b) : GapLt a b := by
  obtain ⟨h1, h2, h3⟩ := h
  rw [Range.overlaps_eq_false_iff] at h2
  rw [Range.nears_eq_false_iff] at h3
  have ha' : a.min ≤ a.max := ha
  have hb' : b.min ≤ b.max := hb
  show a.max + 1 < b.min
  omega

theorem pairwise_imp_mem {R S : Range → Range → Prop} : ∀ {l : List Range},
    (∀ a ∈ l, ∀ b ∈ l, R a b → S a b) → l.Pairwise R → l.Pairwise S := by
  intro l
  induction l with
  | nil => intro _ _; exact List.Pairwise.nil
  | cons a rest ih =>
    intro himp hp
    obtain ⟨ha, hrest⟩ := List.pairwise_cons.mp hp
    refine List.pairwise_cons.mpr ⟨?_, ?_⟩
    · intro b hb
      exact himp a (List.mem_cons_self a rest) b (List.mem_cons_of_mem a hb)
        (ha b hb)
    · exact ih
        (fun x hx y hy => himp x (List.mem_cons_of_mem a hx) y
          (List.mem_cons_of_mem a hy)) hrest

theorem pairwise_lexLt_minLe {l : List Range}
    (h : l.Pairwise LexLtP) : l.Pairwise MinLe := by
  refine pairwise_imp_mem (fun a _ b _ hab => ?_) h
  have := Range.lexLt_eq_true_iff.mp hab
  show a.min ≤ b.min
  omega

theorem build_addAll_valid {l : List Range} (hv : ∀ r ∈ l, r.Valid) :
    ∀ e ∈ (SparseRangeBuilder.build (addAll l)).ranges, e.Valid :=
  (buildLoop_none_canon (fun r hr => hv r (mem_addAll.mp hr))
    (pairwise_lexLt_minLe pairwise_addAll)).1

theorem build_addAll_chain {l : List Range} (hv : ∀ r ∈ l, r.Valid) :
    (SparseRangeBuilder.build (addAll l)).ranges.Chain' GapLt :=
  (buildLoop_none_canon (fun r hr => hv r (mem_addAll.mp hr))
    (pairwise_lexLt_minLe pairwise_addAll)).2

theorem build_addAll_covers {l : List Range} (hv : ∀ r ∈ l, r.Valid)
    (t : Int) :
    ((∃ r ∈ (SparseRangeBuilder.build (addAll l)).ranges, r.covers t) ↔
      ∃ r ∈ l, r.covers t) := by
  rw [show (SparseRangeBuilder.build (addAll l)).ranges =
      buildLoop none (addAll l) from rfl]
  rw [buildLoop_none_covers (fun r hr => hv r (mem_addAll.mp hr))]
  constructor
  · rintro ⟨r, hr, hc⟩
    exact ⟨r, mem_addAll.mp hr, hc⟩
  · rintro ⟨r, hr, hc⟩
    exact ⟨r, mem_addAll.mpr hr, hc⟩

theorem build_addAll_len {l : List Range} (hv : ∀ r ∈ l, r.Valid) :
    (SparseRangeBuilder.build (addAll l)).len = (coveredSet l).card := by
  have hval := build_addAll_valid hv
  have hchain := build_addAll_chain hv
  have h1 : (SparseRangeBuilder.build (addAll l)).len =
      (coveredSet (SparseRangeBuilder.build (addAll l)).ranges).card :=
    len_eq_card _ hval hchain
  rw [h1]
  congr 1
  apply Finset.ext
  intro t
  rw [mem_coveredSet, mem_coveredSet]
  exact build_addAll_covers hv t


/-- Claim C3: for any finite collection of valid ranges added to a
builder in any order, with duplicates allowed, `build()` returns
intervals sorted by `min`, pairwise non-overlapping and pairwise
non-adjacent, and the total covered length equals the cardinality of
the union of the added ranges' point-sets. -/
theorem builder_build_canonical (l : List Range)
    (hv : ∀ r ∈ l, r.Valid) : BuildCanonSpec l := by
  refine ⟨?_, build_addAll_len hv⟩
  have hval := build_addAll_valid hv
  have hchain := build_addAll_chain hv
  have hpair := chain'_gapLt_pairwise _ hval hchain
  exact pairwise_imp_mem
    (fun a ha b hb hab => gapLt_canonSep (hval a ha) (hval b hb) hab) hpair

/-- Witness for claim C3 at the overlapping, duplicated, adjacent
collection `[[2,5], [0,3], [7,8], [2,5], [6,6]]`. -/
theorem builder_build_canonical_witness :
    (∀ r ∈ [Range.mk 2 5, ⟨0,3⟩, ⟨7,8⟩, ⟨2,5⟩, ⟨6,6⟩], r.Valid) ∧
    BuildCanonSpec [⟨2,5⟩, ⟨0,3⟩, ⟨7,8⟩, ⟨2,5⟩, ⟨6,6⟩] :=
  ⟨by decide, builder_build_canonical [⟨2,5⟩, ⟨0,3⟩, ⟨7,8⟩, ⟨2,5⟩, ⟨6,6⟩]
    (by decide)⟩

end Day15

namespace Day15


theorem bAdd_of_all_lt : ∀ (l : List Range) (r : Range),
    (∀ x ∈ l, LexLtP x r) → bAdd r l = l ++ [r] := by
  intro l
  induction l with
  | nil => intro r _; rfl
  | cons x xs ih =>
    intro r hall
    have hx : Range.lexLt x r = true := hall x (List.mem_cons_self x xs)
    have h1 : Range.lexLt r x = false := lexLt_asymm hx
    simp only [bAdd, h1, Bool.false_eq_true, ite_false, hx, ite_true,
      List.cons_append]
    rw [ih r (fun y hy => hall y (List.mem_cons_of_mem x hy))]

theorem addAll_aux_sorted : ∀ (l acc : List Range),
    (acc ++ l).Pairwise LexLtP →
    List.foldl (fun b r => bAdd r b) acc l = acc ++ l := by
  intro l
  induction l with
  | nil => intro acc _; simp
  | cons r rs ih =>
    intro acc hp
    rw [List.foldl_cons]
    have hall : ∀ x ∈ acc, LexLtP x r := by
      rw [List.pairwise_append] at hp
      exact fun x hx => hp.2.2 x hx r (List.mem_cons_self r rs)
    rw [bAdd_of_all_lt acc r hall]
    have hsame : (acc ++ [r]) ++ rs = acc ++ r :: rs := by simp
    rw [ih (acc ++ [r]) (by rw [hsame]; exact hp)]
    exact hsame

theorem addAll_of_sorted {l : List Range} (h : l.Pairwise LexLtP) :
    addAll l = l := by
  unfold addAll
  have := addAll_aux_sorted l [] (by simpa using h)
  simpa using this

theorem buildLoop_some_canonical_id : ∀ (l : List Range) (wip : Range),
    wip.Valid → (∀ x ∈ l, x.Valid) → List.Chain' GapLt (wip :: l) →
    buildLoop (some wip) l = wip :: l := by
  intro l
  induction l with
  | nil => intro wip _ _ _; rfl
  | cons r rs ih =>
    intro wip hwip hv hc
    obtain ⟨hwr, hc'⟩ := List.chain'_cons.mp hc
    have hwr' : wip.max + 1 < r.min := hwr
    have hwip' : wip.min ≤ wip.max := hwip
    have hr : r.min ≤ r.max := hv r (List.mem_cons_self r rs)
    have ho : wip.overlaps r = false := by
      rw [Range.overlaps_eq_false_iff]; omega
    have hn : wip.nears r = false := by
      rw [Range.nears_eq_false_iff]; omega
    rw [show buildLoop (some wip) (r :: rs) =
        if wip.overlaps r || wip.nears r then buildLoop (some (wip.join r)) rs
        else wip :: buildLoop (some r) rs from rfl]
    rw [ho, hn]
    simp only [Bool.or_self, Bool.false_eq_true, ite_false]
    rw [ih r hr (fun x hx => hv x (List.mem_cons_of_mem r hx)) hc']

theorem buildLoop_none_canonical_id {l : List Range}
    (hv : ∀ x ∈ l, x.Valid) (hc : l.Chain' GapLt) :
    buildLoop none l = l := by
  cases l with
  | nil => rfl
  | cons x xs =>
    rw [show buildLoop none (x :: xs) = buildLoop (some x) xs from rfl]
    exact buildLoop_some_canonical_id xs x (hv x (List.mem_cons_self x xs))
      (fun y hy => hv y (List.mem_cons_of_mem x hy)) hc

/-- Claim C9: for a `SparseRange` already in canonical form (valid
intervals, sorted by `min`, pairwise non-overlapping and non-adjacent),
adding all its intervals to a fresh builder and building returns an
identical `SparseRange`. -/
theorem builder_build_idempotent (r : SparseRange)
    (hv : ∀ x ∈ r.ranges, x.Valid)
    (hc : r.ranges.Pairwise CanonSep) :
    SparseRangeBuilder.build (addAll r.ranges) = r := by
  have hgap : r.ranges.Pairwise GapLt :=
    pairwise_imp_mem
      (fun a ha b hb hab => canonSep_gapLt (hv a ha) (hv b hb) hab) hc
  have hlex : r.ranges.Pairwise LexLtP :=
    pairwise_imp_mem (fun a ha b hb hab => by
      have h1 : a.max + 1 < b.min := hab
      have h2 : a.min ≤ a.max := hv a ha
      show Range.lexLt a b = true
      rw [Range.lexLt_eq_true_iff]
      omega) hgap
  rw [addAll_of_sorted hlex]
  show SparseRange.mk (buildLoop none r.ranges) = r
  rw [buildLoop_none_canonical_id hv (List.Pairwise.chain' hgap)]

/-- Witness for claim C9 at the canonical range `{[0,2], [5,7], [10,10]}`. -/
theorem builder_build_idempotent_witness :
    (∀ x ∈ (SparseRange.mk [⟨0,2⟩, ⟨5,7⟩, ⟨10,10⟩]).ranges, x.Valid) ∧
    ((SparseRange.mk [⟨0,2⟩, ⟨5,7⟩, ⟨10,10⟩]).ranges.Pairwise CanonSep) ∧
    SparseRangeBuilder.build
        (addAll (SparseRange.mk [⟨0,2⟩, ⟨5,7⟩, ⟨10,10⟩]).ranges) =
      SparseRange.mk [⟨0,2⟩, ⟨5,7⟩, ⟨10,10⟩] :=
  ⟨by decide, by decide,
   builder_build_idempotent (SparseRange.mk [⟨0,2⟩, ⟨5,7⟩, ⟨10,10⟩])
     (by decide) (by decide)⟩

end Day15

namespace Day15

theorem Sensor.cut_eq (se : Sensor) (ap : Axis) (pos : Int) :
    se.cut ap pos =
      if pos < ap.transposed se.position - (se.range : Int) ∨
          ap.transposed se.position + (se.range : Int) < pos then
        none
      else
        some ⟨ap.axis se.position - (se.range : Int) +
                ((pos - ap.transposed se.position).natAbs : Int),
              ap.axis se.position + (se.range : Int) -
                ((pos - ap.transposed se.position).natAbs : Int)⟩ := rfl

theorem cut_some_valid {se : Sensor} {ap : Axis} {pos : Int} {r : Range}
    (h : se.cut ap pos = some r) : r.Valid := by
  rw [Sensor.cut_eq] at h
  by_cases hc : pos < ap.transposed se.position - (se.range : Int) ∨
      ap.transposed se.position + (se.range : Int) < pos
  · rw [if_pos hc] at h
    exact absurd h (by simp)
  · rw [if_neg hc] at h
    have := Option.some.inj h
    subst this
    show ap.axis se.position - (se.range : Int) +
        ((pos - ap.transposed se.position).natAbs : Int) ≤
      ap.axis se.position + (se.range : Int) -
        ((pos - ap.transposed se.position).natAbs : Int)
    omega

theorem cut_covers_beacon (se : Sensor) (ap : Axis) (pos : Int)
    (hr : se.range = (se.position.x - se.beacon.x).natAbs +
      (se.position.y - se.beacon.y).natAbs)
    (hb : ap.transposed se.beacon = pos) :
    ∃ r : Range, se.cut ap pos = some r ∧ r.covers (ap.axis se.beacon) := by
  rw [Sensor.cut_eq]
  cases ap with
  | X =>
    simp only [Axis.axis, Axis.transposed] at hb ⊢
    rw [if_neg (by omega)]
    refine ⟨_, rfl, ?_⟩
    constructor
    · show se.position.x - (se.range : Int) +
          ((pos - se.position.y).natAbs : Int) ≤ se.beacon.x
      omega
    · show se.beacon.x ≤ se.position.x + (se.range : Int) -
          ((pos - se.position.y).natAbs : Int)
      omega
  | Y =>
    simp only [Axis.axis, Axis.transposed] at hb ⊢
    rw [if_neg (by omega)]
    refine ⟨_, rfl, ?_⟩
    constructor
    · show se.position.y - (se.range : Int) +
          ((pos - se.position.x).natAbs : Int) ≤ se.beacon.y
      omega
    · show se.beacon.y ≤ se.position.y + (se.range : Int) -
          ((pos - se.position.x).natAbs : Int)
      omega

theorem axis_transposed_ext {ap : Axis} {p q : Point}
    (h1 : ap.axis p = ap.axis q) (h2 : ap.transposed p = ap.transposed q) :
    p = q := by
  cases ap <;>
    (obtain ⟨px, py⟩ := p
     obtain ⟨qx, qy⟩ := q
     simp only [Axis.axis, Axis.transposed] at h1 h2
     simp [h1, h2])


/-- Claim C10: for a scan whose sensors carry the `Sensor::new` radius,
the number of distinct beacons on any line is at most the covered length
of the scan's cut on that line (each beacon on the line lies inside its
own sensor's projected interval), so the unsigned subtraction in
`tiles_without_beacons` cannot underflow. -/
theorem scan_beacons_le_cut_len (s : Scan) (hs : ScanRadiusInv s)
    (ap : Axis) (pos : Int) :
    s.beacons ap pos ≤ (s.cut ap pos).len := by
  have hvalid : ∀ r ∈ s.cutList ap pos, r.Valid := by
    intro r hr
    obtain ⟨se, _, hcut⟩ := List.mem_filterMap.mp hr
    exact cut_some_valid hcut
  have hlen : (s.cut ap pos).len = (coveredSet (s.cutList ap pos)).card :=
    build_addAll_len hvalid
  rw [hlen]
  unfold Scan.beacons
  set B := ((s.sensors.filter (fun se => ap.transposed se.beacon == pos)).map
      (fun se => se.beacon)).toFinset with hB
  have htrans : ∀ b ∈ B, ap.transposed b = pos := by
    intro b hb
    rw [hB, List.mem_toFinset, List.mem_map] at hb
    obtain ⟨se, hse, rfl⟩ := hb
    rw [List.mem_filter] at hse
    simpa using hse.2
  have hmaps : ∀ b ∈ B, ap.axis b ∈ coveredSet (s.cutList ap pos) := by
    intro b hb
    rw [hB, List.mem_toFinset, List.mem_map] at hb
    obtain ⟨se, hse, rfl⟩ := hb
    rw [List.mem_filter] at hse
    obtain ⟨hmem, hfix⟩ := hse
    have hfix' : ap.transposed se.beacon = pos := by simpa using hfix
    obtain ⟨r, hcut, hcov⟩ := cut_covers_beacon se ap pos (hs se hmem) hfix'
    rw [mem_coveredSet]
    exact ⟨r, List.mem_filterMap.mpr ⟨se, hmem, hcut⟩, hcov⟩
  have hinj : Set.InjOn (fun b => ap.axis b) ↑B := by
    intro b1 h1 b2 h2 heq
    have t1 := htrans b1 (Finset.mem_coe.mp h1)
    have t2 := htrans b2 (Finset.mem_coe.mp h2)
    exact axis_transposed_ext heq (t1.trans t2.symm)
  exact Finset.card_le_card_of_injOn (fun b => ap.axis b) hmaps hinj

/-- Witness for claim C10 at a one-sensor scan built with `Sensor::new`. -/
theorem scan_beacons_le_cut_len_witness :
    ScanRadiusInv (Scan.mk [Sensor.new ⟨0,0⟩ ⟨2,1⟩]) ∧
    (Scan.mk [Sensor.new ⟨0,0⟩ ⟨2,1⟩]).beacons Axis.X 1 ≤
      ((Scan.mk [Sensor.new ⟨0,0⟩ ⟨2,1⟩]).cut Axis.X 1).len :=
  ⟨by decide,
   scan_beacons_le_cut_len (Scan.mk [Sensor.new ⟨0,0⟩ ⟨2,1⟩]) (by decide)
     Axis.X 1⟩

end Day15
